import Mathlib

/-!
Shallow embedding of the fitting core of the grbLC repository
(`src/grblc/fitting/model.py` and `src/grblc/fitting/models.py`).

Discrete machinery (`Parameter`, `Model` construction/validation, `chisq`)
is embedded executably, with exact rationals standing for floats.
The numeric afterglow shapes and the probability integral are embedded
over the reals, with `np.piecewise` on a scalar rendered as `if`/`else`
and `scipy.integrate.quad` rendered as the exact Lebesgue integral.
-/

namespace GrbLC

/-- Python exception classes raised by `Model.__init__`:
`ValueError` for a bad parameter name, `AssertionError` for bad bounds. -/
inductive PyErr where
  | valueError : String → PyErr
  | assertionError : String → PyErr
deriving DecidableEq, Repr

/-- Embeds `Parameter` (model.py lines 85-124): a pure data holder.
`min`/`max` are `EReal` since the Python defaults are `-np.inf` / `np.inf`. -/
structure Parameter where
  name : String
  description : String
  plot_fmt : String
  min : EReal
  max : EReal
  vary : Bool

/-- Embeds `Parameter.__init__`: fills the defaulted fields exactly as the
Python constructor does.  No validation of any kind is performed. -/
def mkParameter (name : String) (description : Option String)
    (min max : EReal) (vary : Bool) (plot_fmt : Option String) : Parameter :=
  { name := name
    description := description.getD "Autogenerated argument from input function."
    plot_fmt := plot_fmt.getD name
    min := min
    max := max
    vary := vary }

/-- A Python callable as `Model.__init__` sees it: its `__name__`, its
introspectable formal-argument list (first entry being the independent
variable), and its behaviour, taking the independent variable, a list of
positional parameter values and a bag of keyword arguments. -/
structure PyFunc (α γ κ β : Type) where
  pyname : String
  argnames : List String
  impl : α → List γ → κ → β

/-- One assignment `d[key] = v` into a Python dict kept as an ordered
association list: an existing key keeps its position and gets the new
value, a fresh key is appended. -/
def dictInsert (d : List (String × Parameter)) (key : String) (v : Parameter) :
    List (String × Parameter) :=
  if d.any (fun kv => kv.1 == key) then
    d.map (fun kv => if kv.1 == key then (key, v) else kv)
  else d ++ [(key, v)]

/-- The Python dict comprehension over `Parameter`s keyed by name,
insertion-ordered, later duplicates overwriting earlier values. -/
def dictOfParams (ps : List Parameter) : List (String × Parameter) :=
  ps.foldl (fun d p => dictInsert d p.name p) []

/-- Embeds the `Model` object: wrapped callable, labels, the ordered
name-to-`Parameter` dict, and the 4-element xy bounds. -/
structure Model (α γ κ β : Type) where
  func : PyFunc α γ κ β
  name : String
  slug : String
  func_args : List (String × Parameter)
  bounds : List EReal

/-- Embeds `Model.__init__` (model.py lines 128-184).  Validation of a
supplied `func_args` list against the callable's arguments (excluding the
first, the independent variable) raises `ValueError` at the first bad
name; an omitted `func_args` is auto-generated from the signature; a
supplied `bounds` must have length 4 (`AssertionError` otherwise). -/
def mkModel {α γ κ β : Type} (func : PyFunc α γ κ β) (name slug : String)
    (func_args : Option (List Parameter)) (bounds : Option (List EReal)) :
    Except PyErr (Model α γ κ β) :=
  let mname := if name = "" then func.pyname else name
  let mslug := if slug = "" then mname else slug
  let argspec := func.argnames.drop 1
  let fa : Except PyErr (List (String × Parameter)) :=
    match func_args with
    | some ps =>
      match ps.find? (fun p => decide (p.name ∉ argspec)) with
      | some p =>
        Except.error (PyErr.valueError
          (p.name ++ " is not a valid argument for the " ++ mname ++ " model."))
      | none => Except.ok (dictOfParams ps)
    | none =>
      Except.ok (argspec.foldl
        (fun d n => dictInsert d n (mkParameter n none ⊥ ⊤ true none)) [])
  match fa with
  | Except.error e => Except.error e
  | Except.ok fargs =>
    match bounds with
    | some b =>
      if b.length = 4 then
        Except.ok { func := func, name := mname, slug := mslug,
                    func_args := fargs, bounds := b }
      else Except.error (PyErr.assertionError "bounds must be a list of length 4")
    | none =>
      Except.ok { func := func, name := mname, slug := mslug,
                  func_args := fargs, bounds := [⊥, ⊤, ⊥, ⊤] }

/-- Embeds `Model.__len__`: the number of declared parameters. -/
def Model.len {α γ κ β : Type} (m : Model α γ κ β) : Nat :=
  m.func_args.length

/-- Embeds `Model.__call__`: `self.func(x, *p[: len(self)], **kwargs)` —
the positional parameter vector is truncated to the declared parameter
count and the keyword arguments pass through unchanged. -/
def Model.call {α γ κ β : Type} (m : Model α γ κ β) (x : α) (p : List γ)
    (kw : κ) : β :=
  m.func.impl x (p.take m.len) kw

/-- Embeds `Model.__iter__`: iteration over the parameter dict yields its
keys in insertion order. -/
def Model.keys {α γ κ β : Type} (m : Model α γ κ β) : List String :=
  m.func_args.map Prod.fst

/-- Embeds `Model.__getitem__`: dict lookup by parameter name
(`none` standing for Python's `KeyError`). -/
def Model.getItem {α γ κ β : Type} (m : Model α γ κ β) (key : String) :
    Option Parameter :=
  (m.func_args.find? (fun kv => kv.1 == key)).map Prod.snd

end GrbLC

namespace GrbLC

/-- Embeds `chisq` (model.py lines 9-46) over exact rationals:
`r = y - model(x, *p)`, then `Σ r_i² / σ_i²`; with `return_reduced` the
pair `(χ², χ² / (len(x) - len(p)))` is returned instead. -/
def chisq (x y sigma : List ℚ) (model : List ℚ → List ℚ → List ℚ)
    (p : List ℚ) (return_reduced : Bool) : ℚ ⊕ ℚ × ℚ :=
  let r := List.zipWith (fun a b => a - b) y (model x p)
  let c := (List.zipWith (fun ri si => ri ^ 2 / si ^ 2) r sigma).sum
  if return_reduced then
    Sum.inr (c, c / ((x.length : ℚ) - (p.length : ℚ)))
  else
    Sum.inl c

/-- Embeds `_w07` (model.py lines 52-61), the Willingale 2007 shape in
log space.  `np.piecewise` over the exhaustive scalar conditions
`[x < T, x >= T]` is an `if`/`else`, with `x == T` falling in the
after-break branch. -/
noncomputable def _w07 (x T F alpha t : ℝ) : ℝ :=
  if x < T then
    (-t * (10 : ℝ) ^ (-x) + alpha - alpha * (10 : ℝ) ^ (x - T) +
        F * Real.log 10) / Real.log 10
  else
    F + T * alpha - x * alpha - t * (10 : ℝ) ^ (-x) / Real.log 10

/-- Embeds `_simple_bpl` (model.py lines 64-73): the sharp broken power
law, computed linearly and returned in log space; `x == T` falls in the
after-break branch. -/
noncomputable def _simple_bpl (x T F alpha1 alpha2 : ℝ) : ℝ :=
  let linT := (10 : ℝ) ^ T
  let linF := (10 : ℝ) ^ F
  let linX := (10 : ℝ) ^ x
  Real.logb 10
    (if linX < linT then linF * (linX / linT) ^ (-alpha1)
     else linF * (linX / linT) ^ (-alpha2))

/-- Embeds `_smooth_bpl` (model.py lines 76-82): the smooth broken power
law, a single branch-free formula. -/
noncomputable def _smooth_bpl (x T F alpha1 alpha2 S : ℝ) : ℝ :=
  let linT := (10 : ℝ) ^ T
  let linF := (10 : ℝ) ^ F
  let linX := (10 : ℝ) ^ x
  Real.logb 10
    (linF * ((linX / linT) ^ (S * alpha1) + (linX / linT) ^ (S * alpha2)) ^ (-1 / S))

/-- Embeds `w07` (models.py lines 5-14): the same Willingale 2007 shape
written in linear space under a final `log10`. -/
noncomputable def w07 (x T F alpha t : ℝ) : ℝ :=
  if (10 : ℝ) ^ x < (10 : ℝ) ^ T then
    Real.logb 10 ((10 : ℝ) ^ F *
      Real.exp (alpha - alpha * ((10 : ℝ) ^ x / (10 : ℝ) ^ T)) *
      Real.exp (-t / (10 : ℝ) ^ x))
  else
    Real.logb 10 ((10 : ℝ) ^ F *
      ((10 : ℝ) ^ x / (10 : ℝ) ^ T) ^ (-alpha) *
      Real.exp (-t / (10 : ℝ) ^ x))

/-- Embeds `sharp_bpl` (models.py lines 17-26); identical in content to
`_simple_bpl`. -/
noncomputable def sharp_bpl (x T F alpha1 alpha2 : ℝ) : ℝ :=
  let linT := (10 : ℝ) ^ T
  let linF := (10 : ℝ) ^ F
  let linX := (10 : ℝ) ^ x
  Real.logb 10
    (if linX < linT then linF * (linX / linT) ^ (-alpha1)
     else linF * (linX / linT) ^ (-alpha2))

/-- Embeds `smooth_bpl` (models.py lines 29-33).  Note the source's first
summand reads `(x / linT) ** (alpha1 * S)` — the log-space `x`, not
`linX`; the embedding reproduces that exactly. -/
noncomputable def smooth_bpl (x T F alpha1 alpha2 S : ℝ) : ℝ :=
  let linT := (10 : ℝ) ^ T
  let linF := (10 : ℝ) ^ F
  let linX := (10 : ℝ) ^ x
  Real.logb 10
    (linF * ((x / linT) ^ (alpha1 * S) + (linX / linT) ^ (alpha2 * S)) ^ (-1 / S))

/-- A small concrete callable (one independent variable `x`, one declared
parameter `a`) used to instantiate general `Model` theorems. -/
def demoFunc : PyFunc ℚ ℚ Unit ℚ :=
  { pyname := "f"
    argnames := ["x", "a"]
    impl := fun x ps _ => x + ps.getD 0 0 }

/-- A concrete `Model` wrapping `demoFunc`, used to instantiate general
`Model` theorems. -/
def demoModel : Model ℚ ℚ Unit ℚ :=
  { func := demoFunc
    name := "f"
    slug := "f"
    func_args := [("a", mkParameter "a" none ⊥ ⊤ true none)]
    bounds := [⊥, ⊤, ⊥, ⊤] }

/-- Embeds `probability` (models.py lines 53-61): the upper tail of the
chi-squared density with `nu` degrees of freedom from `reduced_chisq * nu`
to infinity; `scipy.integrate.quad` is rendered as the exact integral.
The `tt` argument is carried but unused, as in the source. -/
noncomputable def probability (reduced_chisq nu tt : ℝ) : ℝ :=
  ∫ x in Set.Ioi (reduced_chisq * nu),
    (2 : ℝ) ^ (-nu / 2) / Real.Gamma (nu / 2) * Real.exp (-x / 2) *
      x ^ (-1 + nu / 2)

end GrbLC

namespace GrbLC

/-- Theorem C1x helper: the `ValueError` branch of `mkModel` fires exactly
when `find?` locates a `Parameter` whose name is outside the argspec. -/
theorem mkModel_find_spec {α γ κ β : Type} (func : PyFunc α γ κ β)
    (ps : List Parameter) :
    (ps.find? (fun p => decide (p.name ∉ func.argnames.drop 1)) = none) ↔
      ∀ p ∈ ps, p.name ∈ func.argnames.drop 1 := by
  rw [List.find?_eq_none]
  constructor
  · intro h p hp
    have := h p hp
    simpa using this
  · intro h p hp
    simpa using h p hp

/-- C1: `Model` construction (with default bounds) fails, and fails with a
`ValueError`-class error, exactly when some supplied `Parameter` has a name
that is not among the wrapped callable's formal parameters excluding the
first; equivalently, construction succeeds exactly when all supplied names
are valid.  In the embedding the check happens inside `mkModel` itself, so
the error is a construction-time outcome, never deferred to call time. -/
theorem model_construction_valueError_iff {α γ κ β : Type}
    (func : PyFunc α γ κ β) (name slug : String) (ps : List Parameter) :
    ((∃ msg, mkModel func name slug (some ps) none =
        Except.error (PyErr.valueError msg)) ↔
      ∃ p ∈ ps, p.name ∉ func.argnames.drop 1) ∧
    ((∃ m, mkModel func name slug (some ps) none = Except.ok m) ↔
      ∀ p ∈ ps, p.name ∈ func.argnames.drop 1) := by
  unfold mkModel
  cases hfind : ps.find? (fun p => decide (p.name ∉ func.argnames.drop 1)) with
  | none =>
    have hall : ∀ p ∈ ps, p.name ∈ func.argnames.drop 1 :=
      (mkModel_find_spec func ps).mp hfind
    simp only [hfind]
    constructor
    · constructor
      · rintro ⟨msg, hmsg⟩
        simp at hmsg
      · rintro ⟨p, hp, hbad⟩
        exact absurd (hall p hp) hbad
    · constructor
      · intro _
        exact hall
      · intro _
        exact ⟨_, rfl⟩
  | some p =>
    have hp : p ∈ ps := List.mem_of_find?_eq_some hfind
    have hbad : p.name ∉ func.argnames.drop 1 := by
      have := List.find?_some hfind
      simpa using this
    simp only [hfind]
    constructor
    · constructor
      · intro _
        exact ⟨p, hp, hbad⟩
      · intro _
        exact ⟨_, rfl⟩
    · constructor
      · rintro ⟨m, hm⟩
        simp at hm
      · intro h
        exact absurd (h p hp) hbad

/-- Helper: the summed elementwise `r_i^2 / s_i^2` over the residual list
equals an index-wise finite sum. -/
theorem zipWith_sq_div_sum (y m s : List ℚ) (hm : m.length = y.length)
    (hs : s.length = y.length) :
    (List.zipWith (fun ri si => ri ^ 2 / si ^ 2)
        (List.zipWith (fun a b => a - b) y m) s).sum =
      ∑ i ∈ Finset.range y.length,
        ((y.getD i 0 - m.getD i 0) / s.getD i 0) ^ 2 := by
  induction y generalizing m s with
  | nil => simp
  | cons a ys ih =>
    cases m with
    | nil => simp at hm
    | cons b ms =>
      cases s with
      | nil => simp at hs
      | cons c ss =>
        simp only [List.zipWith_cons_cons, List.sum_cons, List.length_cons]
        rw [Finset.sum_range_succ']
        simp only [List.getD_cons_succ, List.getD_cons_zero]
        rw [ih ms ss (by simpa using hm) (by simpa using hs), div_pow,
          add_comm]

/-- C2: for equal-length inputs, `chisq` returns exactly
`Σ_i ((y_i - model(x, p)_i) / sigma_i)^2`, and with `return_reduced=True`
the pair of that value and its quotient by `len(x) - len(p)`. -/
theorem chisq_sum_and_reduced (x y sigma : List ℚ)
    (model : List ℚ → List ℚ → List ℚ) (p : List ℚ)
    (hy : y.length = x.length) (hs : sigma.length = x.length)
    (hm : (model x p).length = x.length) :
    chisq x y sigma model p false =
      Sum.inl (∑ i ∈ Finset.range x.length,
        ((y.getD i 0 - (model x p).getD i 0) / sigma.getD i 0) ^ 2) ∧
    chisq x y sigma model p true =
      Sum.inr (∑ i ∈ Finset.range x.length,
          ((y.getD i 0 - (model x p).getD i 0) / sigma.getD i 0) ^ 2,
        (∑ i ∈ Finset.range x.length,
          ((y.getD i 0 - (model x p).getD i 0) / sigma.getD i 0) ^ 2) /
          ((x.length : ℚ) - (p.length : ℚ))) := by
  have hsum := zipWith_sq_div_sum y (model x p) sigma
    (by rw [hm, hy]) (by rw [hs, hy])
  rw [hy] at hsum
  constructor
  · simp only [chisq, Bool.false_eq_true, if_false, hsum]
  · simp only [chisq, if_true, hsum]

/-- Witness for C2 at a concrete input. -/
theorem chisq_sum_and_reduced_witness :
    ([(2 : ℚ), 3].length = [(1 : ℚ), 2].length ∧
      [(1 : ℚ), 1].length = [(1 : ℚ), 2].length ∧
      ((fun (xs : List ℚ) (ps : List ℚ) =>
        xs.map (fun v => v + ps.getD 0 0)) [(1 : ℚ), 2] [(1 : ℚ)]).length =
        [(1 : ℚ), 2].length) ∧
    chisq [(1 : ℚ), 2] [(2 : ℚ), 3] [(1 : ℚ), 1]
        (fun xs ps => xs.map (fun v => v + ps.getD 0 0)) [(1 : ℚ)] false =
      Sum.inl (∑ i ∈ Finset.range ([(1 : ℚ), 2].length),
        (([(2 : ℚ), 3].getD i 0 -
            (((fun (xs : List ℚ) (ps : List ℚ) =>
              xs.map (fun v => v + ps.getD 0 0)) [(1 : ℚ), 2] [(1 : ℚ)]).getD i 0)) /
          ([(1 : ℚ), 1].getD i 0)) ^ 2) :=
  ⟨⟨by decide, by decide, by decide⟩,
    (chisq_sum_and_reduced [(1 : ℚ), 2] [(2 : ℚ), 3] [(1 : ℚ), 1]
      (fun xs ps => xs.map (fun v => v + ps.getD 0 0)) [(1 : ℚ)]
      (by decide) (by decide) (by decide)).1⟩

/-- Helper: the residual of a list against itself is a zero list. -/
theorem zipWith_sub_self (l : List ℚ) :
    List.zipWith (fun a b => a - b) l l = List.replicate l.length 0 := by
  induction l with
  | nil => rfl
  | cons a t ih => simp [List.replicate_succ, ih]

/-- Helper: the chi-squared terms of an all-zero residual list sum to 0. -/
theorem zipWith_sq_div_replicate_zero (n : Nat) (s : List ℚ) :
    (List.zipWith (fun ri si => ri ^ 2 / si ^ 2)
      (List.replicate n 0) s).sum = 0 := by
  induction n generalizing s with
  | zero => rfl
  | succ k ih =>
    cases s with
    | nil => rfl
    | cons c ss => simp [List.replicate_succ, ih]

/-- C9: when `y` equals `model(x, *p)` exactly, `chisq` returns exactly 0,
for any `sigma` whose entries are all nonzero. -/
theorem chisq_exact_fit_zero (x y sigma : List ℚ)
    (model : List ℚ → List ℚ → List ℚ) (p : List ℚ)
    (hy : y = model x p) (hsig : ∀ s ∈ sigma, s ≠ 0) :
    chisq x y sigma model p false = Sum.inl 0 := by
  simp only [chisq, Bool.false_eq_true, if_false, ← hy, zipWith_sub_self,
    zipWith_sq_div_replicate_zero]

/-- C4: `Model.__call__` uses only the first `len(model)` positional
parameter values — appending extra trailing values changes nothing and no
error occurs — and the keyword-argument bag `kw` passes through to the
wrapped callable unchanged. -/
theorem model_call_truncates {α γ κ β : Type} (m : Model α γ κ β) (x : α)
    (p extra : List γ) (kw : κ) (hp : p.length = Model.len m) :
    Model.call m x (p ++ extra) kw = m.func.impl x p kw ∧
    Model.call m x p kw = m.func.impl x p kw := by
  constructor
  · rw [Model.call, ← hp, List.take_left]
  · rw [Model.call, ← hp, List.take_length]

/-- Witness for C4 at a concrete model and inputs. -/
theorem model_call_truncates_witness :
    [(5 : ℚ)].length = Model.len demoModel ∧
    (Model.call demoModel 7 ([(5 : ℚ)] ++ [9, 11]) () =
        demoModel.func.impl 7 [(5 : ℚ)] () ∧
      Model.call demoModel 7 [(5 : ℚ)] () = demoModel.func.impl 7 [(5 : ℚ)] ()) :=
  ⟨rfl, model_call_truncates demoModel 7 [(5 : ℚ)] [9, 11] () rfl⟩

/-- C6 counterexample: `Parameter.__init__` performs no bounds check, so
construction with `min = 1 > 0 = max` succeeds and produces an object
violating `min ≤ max` — refuting the claim that such construction is
impossible without error. -/
theorem parameter_min_le_max_counterexample :
    ¬ ((mkParameter "a" none 1 0 true none).min ≤
        (mkParameter "a" none 1 0 true none).max) := by
  intro h
  exact absurd (lt_of_lt_of_le zero_lt_one (h : (1 : EReal) ≤ 0))
    (lt_irrefl (0 : EReal))

/-- C6 amended: `Parameter` construction never fails and stores `min` and
`max` exactly as supplied, so the constructed object satisfies
`min ≤ max` precisely when the supplied arguments do; the invariant is not
enforced by construction. -/
theorem parameter_stores_bounds_unchecked (name : String)
    (description : Option String) (mn mx : EReal) (vary : Bool)
    (fmt : Option String) :
    (mkParameter name description mn mx vary fmt).min = mn ∧
    (mkParameter name description mn mx vary fmt).max = mx ∧
    ((mkParameter name description mn mx vary fmt).min ≤
        (mkParameter name description mn mx vary fmt).max ↔ mn ≤ mx) :=
  ⟨rfl, rfl, Iff.rfl⟩

/-- Helper: folding Python dict assignments of fresh, pairwise-distinct
keys appends the corresponding pairs in order. -/
theorem foldl_dictInsert_fresh (P : String → Parameter) :
    ∀ (ns : List String) (d : List (String × Parameter)), ns.Nodup →
      (∀ n ∈ ns, ∀ kv ∈ d, kv.1 ≠ n) →
      ns.foldl (fun acc n => dictInsert acc n (P n)) d =
        d ++ ns.map (fun n => (n, P n)) := by
  intro ns
  induction ns with
  | nil =>
    intro d _ _
    simp
  | cons n t ih =>
    intro d hnd hfresh
    have hnot : ¬ d.any (fun kv => kv.1 == n) = true := by
      simp only [List.any_eq_true, beq_iff_eq, not_exists, not_and]
      intro kv hkv
      exact hfresh n (List.mem_cons_self n t) kv hkv
    have hins : dictInsert d n (P n) = d ++ [(n, P n)] := by
      rw [dictInsert, if_neg hnot]
    simp only [List.foldl_cons, hins]
    rw [ih (d ++ [(n, P n)]) (List.Nodup.of_cons hnd) ?_]
    · simp
    · intro m hm kv hkv
      rcases List.mem_append.mp hkv with hd | hsing
      · exact hfresh m (List.mem_cons_of_mem n hm) kv hd
      · have hkv1 : kv = (n, P n) := List.mem_singleton.mp hsing
        subst hkv1
        intro heq
        have hnm : n = m := heq
        exact (List.nodup_cons.mp hnd).1 (by rw [hnm]; exact hm)

/-- Helper: looking a present key up in a key-value list built from a
function on the keys returns that key's pair. -/
theorem find?_map_key (P : String → Parameter) :
    ∀ (ns : List String) (n : String), n ∈ ns →
      (ns.map (fun k => (k, P k))).find? (fun kv => kv.1 == n) =
        some (n, P n) := by
  intro ns
  induction ns with
  | nil =>
    intro n hn
    simp at hn
  | cons k t ih =>
    intro n hn
    by_cases hk : k = n
    · subst hk
      simp [List.find?]
    · rcases List.mem_cons.mp hn with hkn | ht
      · exact absurd hkn.symm hk
      · have hbeq : ((k, P k).1 == n) = false := by
          simp [hk]
        simp only [List.map_cons, List.find?_cons, hbeq]
        exact ih n ht

/-- C7 counterexample: a `Model` built with a supplied `func_args` list in
the order `[b, a]` against a callable whose signature (after the
independent variable) is `[a, b]` constructs successfully, yet iterating
it yields `["b", "a"]`, not the signature order `["a", "b"]`. -/
theorem model_param_order_counterexample :
    (mkModel (⟨"f", ["x", "a", "b"], fun (x : ℚ) (_ : List ℚ) (_ : Unit) => x⟩ :
        PyFunc ℚ ℚ Unit ℚ) "" ""
      (some [mkParameter "b" none ⊥ ⊤ true none,
             mkParameter "a" none ⊥ ⊤ true none]) none).map Model.keys =
      Except.ok ["b", "a"] ∧ (["b", "a"] : List String) ≠ ["a", "b"] := by
  constructor
  · rfl
  · decide

/-- C7 amended: when `func_args` is omitted, the auto-generated parameters
do follow the callable's positional signature order (excluding the
independent variable): iteration yields exactly those names in order, the
length is their count, and indexing by any such name returns the default
auto-generated `Parameter`.  (When `func_args` is supplied, iteration
instead follows the supplied list's order, as the counterexample shows.) -/
theorem model_param_order_amended {α γ κ β : Type} (func : PyFunc α γ κ β)
    (name slug : String) (hnd : (func.argnames.drop 1).Nodup) :
    ∃ m, mkModel func name slug none none = Except.ok m ∧
      Model.keys m = func.argnames.drop 1 ∧
      Model.len m = (func.argnames.drop 1).length ∧
      ∀ n ∈ func.argnames.drop 1,
        Model.getItem m n = some (mkParameter n none ⊥ ⊤ true none) := by
  have hfold := foldl_dictInsert_fresh
    (fun n => mkParameter n none ⊥ ⊤ true none)
    (func.argnames.drop 1) [] hnd (by intro n _ kv hkv; simp at hkv)
  refine ⟨_, rfl, ?_, ?_, ?_⟩
  · show ((func.argnames.drop 1).foldl
        (fun d n => dictInsert d n (mkParameter n none ⊥ ⊤ true none)) []).map
        Prod.fst = func.argnames.drop 1
    rw [hfold, List.nil_append, List.map_map]
    exact List.map_id _
  · show ((func.argnames.drop 1).foldl
        (fun d n => dictInsert d n (mkParameter n none ⊥ ⊤ true none)) []).length =
        (func.argnames.drop 1).length
    rw [hfold]
    simp
  · intro n hn
    show (((func.argnames.drop 1).foldl
        (fun d n => dictInsert d n (mkParameter n none ⊥ ⊤ true none)) []).find?
          (fun kv => kv.1 == n)).map Prod.snd =
        some (mkParameter n none ⊥ ⊤ true none)
    rw [hfold]
    simp only [List.nil_append]
    rw [find?_map_key (fun k => mkParameter k none ⊥ ⊤ true none)
      (func.argnames.drop 1) n hn]
    rfl

/-- Witness for C7's amended statement at a concrete callable. -/
theorem model_param_order_amended_witness :
    ((["x", "a", "b"].drop 1).Nodup ∧
      ∃ m, mkModel (⟨"f", ["x", "a", "b"],
          fun (x : ℚ) (_ : List ℚ) (_ : Unit) => x⟩ : PyFunc ℚ ℚ Unit ℚ)
          "" "" none none = Except.ok m ∧
        Model.keys m = ["x", "a", "b"].drop 1 ∧
        Model.len m = (["x", "a", "b"].drop 1).length ∧
        ∀ n ∈ ["x", "a", "b"].drop 1,
          Model.getItem m n = some (mkParameter n none ⊥ ⊤ true none)) :=
  ⟨by decide,
    model_param_order_amended (⟨"f", ["x", "a", "b"],
      fun (x : ℚ) (_ : List ℚ) (_ : Unit) => x⟩ : PyFunc ℚ ℚ Unit ℚ)
      "" "" (by decide)⟩

/-- Witness for C9 at a concrete input. -/
theorem chisq_exact_fit_zero_witness :
    ([(3 : ℚ), 4] = (fun (xs : List ℚ) (ps : List ℚ) =>
        xs.map (fun v => v + ps.getD 0 0)) [(1 : ℚ), 2] [(2 : ℚ)] ∧
      ∀ s ∈ [(1 : ℚ), 5], s ≠ 0) ∧
    chisq [(1 : ℚ), 2] [(3 : ℚ), 4] [(1 : ℚ), 5]
        (fun xs ps => xs.map (fun v => v + ps.getD 0 0)) [(2 : ℚ)] false =
      Sum.inl 0 :=
  ⟨⟨by norm_num, by norm_num⟩,
    chisq_exact_fit_zero [(1 : ℚ), 2] [(3 : ℚ), 4] [(1 : ℚ), 5]
      (fun xs ps => xs.map (fun v => v + ps.getD 0 0)) [(2 : ℚ)]
      (by norm_num) (by norm_num)⟩

/-- Helper: the natural log of 10 exceeds 1 (used to bound the concrete
Willingale value and to divide by `log 10`). -/
theorem one_lt_log_ten : 1 < Real.log 10 := by
  calc 1 = Real.log (Real.exp 1) := (Real.log_exp 1).symm
    _ < Real.log 10 :=
      Real.log_lt_log (Real.exp_pos 1)
        (lt_trans Real.exp_one_lt_d9 (by norm_num))

/-- Helper: `10 ^ (-5)` as a rational value. -/
theorem rpow_neg_five : (10 : ℝ) ^ (-(5 : ℝ)) = 1 / 100000 := by
  rw [show (-(5 : ℝ)) = ((-5 : ℤ) : ℝ) by norm_num, Real.rpow_intCast]
  norm_num

/-- C3: at the breakpoint `x = T` both piecewise afterglow shapes take
exactly their after-break branch (the predicate pair `[x < T, x >= T]`
sends the boundary to the second branch); in the concrete Willingale
scenario `T=5, F=-12, alpha=1.5, t=1` the value at `x=5` is exactly
`F + T*alpha - x*alpha - t*10^(-x)/ln 10`, which lies strictly between
`-12 - 10^(-5)` and `-12` (≈ `-12.0000043`).  The smooth shape has no
branch, so the boundary condition is about the two piecewise shapes. -/
theorem breakpoint_after_branch :
    (∀ T F alpha t : ℝ, _w07 T T F alpha t =
      F + T * alpha - T * alpha - t * (10 : ℝ) ^ (-T) / Real.log 10) ∧
    (∀ T F a1 a2 : ℝ, _simple_bpl T T F a1 a2 =
      Real.logb 10 ((10 : ℝ) ^ F * ((10 : ℝ) ^ T / (10 : ℝ) ^ T) ^ (-a2))) ∧
    _w07 5 5 (-12) 1.5 1 =
      -12 + 5 * 1.5 - 5 * 1.5 - 1 * (10 : ℝ) ^ (-(5 : ℝ)) / Real.log 10 ∧
    -12 - 1 / 100000 < _w07 5 5 (-12) 1.5 1 ∧
    _w07 5 5 (-12) 1.5 1 < -12 := by
  have hval : _w07 5 5 (-12) 1.5 1 =
      -12 + 5 * 1.5 - 5 * 1.5 - 1 * (10 : ℝ) ^ (-(5 : ℝ)) / Real.log 10 := by
    rw [_w07, if_neg (lt_irrefl (5 : ℝ))]
  have hlog := one_lt_log_ten
  have hq : (0 : ℝ) < (1 / 100000 : ℝ) / Real.log 10 := by positivity
  have hq' : (1 / 100000 : ℝ) / Real.log 10 < 1 / 100000 :=
    div_lt_self (by norm_num) hlog
  refine ⟨?_, ?_, hval, ?_, ?_⟩
  · intro T F alpha t
    rw [_w07, if_neg (lt_irrefl T)]
  · intro T F a1 a2
    simp only [_simple_bpl]
    rw [if_neg (lt_irrefl ((10 : ℝ) ^ T))]
  · rw [hval, rpow_neg_five]
    linarith
  · rw [hval, rpow_neg_five]
    linarith

/-- Helper: the sharp broken power law at the sample point
`x=1, T=0, F=0, alpha1=2, alpha2=1` (after-break branch, since
`10^1 >= 10^0`). -/
theorem sharp_bpl_eval : sharp_bpl 1 0 0 2 1 = -1 := by
  simp only [sharp_bpl, Real.rpow_one, Real.rpow_zero]
  rw [if_neg (by norm_num), div_one, one_mul, Real.rpow_neg_one,
    Real.logb_inv, Real.logb_self_eq_one (by norm_num)]

/-- Helper: the (as-implemented) smooth broken power law at the sample
point `x=1, T=0, F=0, alpha1=2, alpha2=1` for arbitrary smoothing `S`:
the first summand degenerates to `1^(2S) = 1` because the source uses the
log-space `x` over `linT`. -/
theorem smooth_bpl_eval (S : ℝ) :
    smooth_bpl 1 0 0 2 1 S = -1 / S * Real.logb 10 (1 + (10 : ℝ) ^ S) := by
  have hpos : (0 : ℝ) < 1 + (10 : ℝ) ^ S := by positivity
  simp only [smooth_bpl, Real.rpow_one, Real.rpow_zero, div_one,
    Real.one_rpow, one_mul]
  rw [add_comm ((1 : ℝ)) ((10 : ℝ) ^ S)] at hpos ⊢
  rw [Real.logb_rpow_eq_mul_logb_of_pos hpos, add_comm ((10 : ℝ) ^ S) 1]

/-- Helper: `log10 (1 + 10^S) = S + log10 (1 + 10^(-S))`. -/
theorem logb_one_add_rpow_split (S : ℝ) :
    Real.logb 10 (1 + (10 : ℝ) ^ S) =
      S + Real.logb 10 (1 + (10 : ℝ) ^ (-S)) := by
  have hS : (0 : ℝ) < (10 : ℝ) ^ S := Real.rpow_pos_of_pos (by norm_num) S
  have hprod : (1 : ℝ) + (10 : ℝ) ^ S =
      (10 : ℝ) ^ S * (1 + (10 : ℝ) ^ (-S)) := by
    rw [mul_add, mul_one, ← Real.rpow_add (by norm_num)]
    simp [add_comm]
  rw [hprod, Real.logb_mul hS.ne' (by positivity),
    Real.logb_rpow (by norm_num) (by norm_num)]

/-- Helper: for positive `S`, the absolute smooth-versus-sharp gap at the
sample point is `(1/S) * log10 (1 + 10^(-S))`. -/
theorem smooth_diff_abs (S : ℝ) (hS : 0 < S) :
    |smooth_bpl 1 0 0 2 1 S - sharp_bpl 1 0 0 2 1| =
      1 / S * Real.logb 10 (1 + (10 : ℝ) ^ (-S)) := by
  have hL : 0 ≤ Real.logb 10 (1 + (10 : ℝ) ^ (-S)) :=
    Real.logb_nonneg (by norm_num)
      (by nlinarith [Real.rpow_pos_of_pos (show (0:ℝ) < 10 by norm_num) (-S)])
  have hdiff : smooth_bpl 1 0 0 2 1 S - sharp_bpl 1 0 0 2 1 =
      -(1 / S * Real.logb 10 (1 + (10 : ℝ) ^ (-S))) := by
    rw [smooth_bpl_eval, sharp_bpl_eval, logb_one_add_rpow_split]
    field_simp
  rw [hdiff, abs_neg, abs_of_nonneg (by positivity)]

/-- C5 counterexample: at the sample point `x=1` away from the breakpoint
(`T=0, F=0, alpha1=2, alpha2=1`), growing `|S|` from 1 (at `S = 1`) to 2
(at `S = -2`) strictly increases `|smooth_bpl - sharp_bpl|`, refuting the
claimed monotone shrinkage in `|S|`. -/
theorem smooth_to_sharp_counterexample :
    |(1 : ℝ)| < |(-2 : ℝ)| ∧
    |smooth_bpl 1 0 0 2 1 1 - sharp_bpl 1 0 0 2 1| <
      |smooth_bpl 1 0 0 2 1 (-2) - sharp_bpl 1 0 0 2 1| := by
  constructor
  · rw [abs_one, abs_neg]
    norm_num
  · have hd1 : |smooth_bpl 1 0 0 2 1 1 - sharp_bpl 1 0 0 2 1| =
        Real.logb 10 (1 + (10 : ℝ) ^ (-(1 : ℝ))) := by
      rw [smooth_diff_abs 1 one_pos]
      norm_num
    have h01 : (10 : ℝ) ^ (-(1 : ℝ)) = 1 / 10 := by
      rw [Real.rpow_neg_one]
      norm_num
    have hlt1 : Real.logb 10 (1 + (10 : ℝ) ^ (-(1 : ℝ))) < 1 := by
      rw [h01]
      calc Real.logb 10 (1 + 1 / 10) < Real.logb 10 10 :=
            Real.logb_lt_logb (by norm_num) (by norm_num) (by norm_num)
        _ = 1 := Real.logb_self_eq_one (by norm_num)
    have h02 : (10 : ℝ) ^ (-2 : ℝ) = 1 / 100 := by
      rw [show (-2 : ℝ) = ((-2 : ℤ) : ℝ) by norm_num, Real.rpow_intCast]
      norm_num
    have hL2 : 0 ≤ Real.logb 10 (1 + 1 / 100 : ℝ) :=
      Real.logb_nonneg (by norm_num) (by norm_num)
    have hd2 : smooth_bpl 1 0 0 2 1 (-2) - sharp_bpl 1 0 0 2 1 =
        1 / 2 * Real.logb 10 (1 + 1 / 100) + 1 := by
      rw [smooth_bpl_eval, sharp_bpl_eval, h02]
      ring
    have habs2 : |smooth_bpl 1 0 0 2 1 (-2) - sharp_bpl 1 0 0 2 1| =
        1 / 2 * Real.logb 10 (1 + 1 / 100) + 1 := by
      rw [hd2]
      exact abs_of_pos (by linarith)
    rw [hd1, habs2]
    calc Real.logb 10 (1 + (10 : ℝ) ^ (-(1 : ℝ))) < 1 := hlt1
      _ ≤ 1 / 2 * Real.logb 10 (1 + 1 / 100) + 1 := by linarith

/-- C5 amended: at the tested sample point `x=1` away from the breakpoint
(`T=0, F=0, alpha1=2, alpha2=1`), the absolute difference between
`smooth_bpl` and `sharp_bpl` does shrink strictly monotonically as `S`
grows through positive values; the shrinkage is not monotone in `|S|`
once `S` changes sign (see the counterexample), so it holds per sign of
`S`, not in `|S|`. -/
theorem smooth_to_sharp_amended (S1 S2 : ℝ) (h1 : 0 < S1) (h12 : S1 < S2) :
    |smooth_bpl 1 0 0 2 1 S2 - sharp_bpl 1 0 0 2 1| <
      |smooth_bpl 1 0 0 2 1 S1 - sharp_bpl 1 0 0 2 1| := by
  have h2 : (0 : ℝ) < S2 := h1.trans h12
  rw [smooth_diff_abs S1 h1, smooth_diff_abs S2 h2]
  have hinv : 1 / S2 < 1 / S1 := one_div_lt_one_div_of_lt h1 h12
  have hrp : (10 : ℝ) ^ (-S2) < (10 : ℝ) ^ (-S1) :=
    (Real.rpow_lt_rpow_left_iff (by norm_num)).mpr (by linarith)
  have hrp2 : (0 : ℝ) < (10 : ℝ) ^ (-S2) :=
    Real.rpow_pos_of_pos (by norm_num) (-S2)
  have hL2pos : 0 < Real.logb 10 (1 + (10 : ℝ) ^ (-S2)) :=
    Real.logb_pos (by norm_num) (by linarith)
  have hLlt : Real.logb 10 (1 + (10 : ℝ) ^ (-S2)) <
      Real.logb 10 (1 + (10 : ℝ) ^ (-S1)) :=
    Real.logb_lt_logb (by norm_num) (by linarith) (by linarith)
  calc 1 / S2 * Real.logb 10 (1 + (10 : ℝ) ^ (-S2))
      < 1 / S1 * Real.logb 10 (1 + (10 : ℝ) ^ (-S2)) :=
        mul_lt_mul_of_pos_right hinv hL2pos
    _ < 1 / S1 * Real.logb 10 (1 + (10 : ℝ) ^ (-S1)) :=
        mul_lt_mul_of_pos_left hLlt (by positivity)

/-- Witness for C5's amended statement at `S1 = 1`, `S2 = 2`. -/
theorem smooth_to_sharp_amended_witness :
    (0 : ℝ) < 1 ∧ (1 : ℝ) < 2 ∧
    |smooth_bpl 1 0 0 2 1 2 - sharp_bpl 1 0 0 2 1| <
      |smooth_bpl 1 0 0 2 1 1 - sharp_bpl 1 0 0 2 1| :=
  ⟨by norm_num, by norm_num,
    smooth_to_sharp_amended 1 2 (by norm_num) (by norm_num)⟩

/-- C10: the log-space Willingale implementation `_w07` of model.py and
the linear-space implementation `w07` of models.py agree at every real
input, on both branches (the branch predicates `x < T` and
`10^x < 10^T` are equivalent, and the branch formulas agree in exact
real arithmetic). -/
theorem w07_implementations_equal (x T F alpha t : ℝ) :
    w07 x T F alpha t = _w07 x T F alpha t := by
  have h10 : (1 : ℝ) < 10 := by norm_num
  have h10p : (0 : ℝ) < 10 := by norm_num
  have hlt : ((10 : ℝ) ^ x < (10 : ℝ) ^ T) ↔ x < T :=
    Real.rpow_lt_rpow_left_iff h10
  have hxp : (0 : ℝ) < (10 : ℝ) ^ x := Real.rpow_pos_of_pos h10p x
  have hTp : (0 : ℝ) < (10 : ℝ) ^ T := Real.rpow_pos_of_pos h10p T
  have hFp : (0 : ℝ) < (10 : ℝ) ^ F := Real.rpow_pos_of_pos h10p F
  have hlog : Real.log 10 ≠ 0 := by
    have := one_lt_log_ten
    linarith
  unfold w07 _w07
  by_cases hxT : x < T
  · rw [if_pos (hlt.mpr hxT), if_pos hxT]
    rw [Real.logb, Real.log_mul (by positivity) (Real.exp_ne_zero _),
      Real.log_mul hFp.ne' (Real.exp_ne_zero _), Real.log_exp, Real.log_exp,
      Real.log_rpow h10p, Real.rpow_sub h10p, Real.rpow_neg h10p.le]
    field_simp
    ring
  · rw [if_neg (fun h => hxT (hlt.mp h)), if_neg hxT]
    rw [Real.logb, Real.log_mul (by positivity) (Real.exp_ne_zero _),
      Real.log_mul hFp.ne' (by positivity), Real.log_exp,
      Real.log_rpow h10p, Real.log_rpow (by positivity),
      Real.log_div hxp.ne' hTp.ne', Real.log_rpow h10p, Real.log_rpow h10p,
      Real.rpow_neg h10p.le]
    field_simp
    ring

end GrbLC

namespace GrbLC

open MeasureTheory Set

/-- Helper: integrability on `(0, ∞)` of the rate-`1/2` Gamma integrand,
obtained from the convergence of Euler's Gamma integral by the change of
variable `x ↦ x/2`. -/
theorem halfGamma_integrableOn (a : ℝ) (ha : 0 < a) :
    IntegrableOn (fun x : ℝ => x ^ (a - 1) * Real.exp (-(1 / 2 * x))) (Ioi 0) := by
  have hbase := Real.GammaIntegral_convergent ha
  have hcomp : IntegrableOn
      (fun x : ℝ => Real.exp (-(1 / 2 * x)) * ((1 / 2 : ℝ) * x) ^ (a - 1)) (Ioi 0) := by
    have h := (integrableOn_Ioi_comp_mul_left_iff
        (fun x : ℝ => Real.exp (-x) * x ^ (a - 1)) 0
        (show (0 : ℝ) < 1 / 2 by norm_num)).mpr (by simpa using hbase)
    simpa using h
  have hconst := hcomp.const_mul (((1 / 2 : ℝ) ^ (a - 1))⁻¹)
  refine MeasureTheory.IntegrableOn.congr_fun hconst ?_ measurableSet_Ioi
  intro x hx
  have hxpos : (0 : ℝ) < x := hx
  have hne : ((1 / 2 : ℝ) ^ (a - 1)) ≠ 0 :=
    (Real.rpow_pos_of_pos (by norm_num) _).ne'
  show ((1 / 2 : ℝ) ^ (a - 1))⁻¹ *
      (Real.exp (-(1 / 2 * x)) * ((1 / 2 : ℝ) * x) ^ (a - 1)) =
    x ^ (a - 1) * Real.exp (-(1 / 2 * x))
  rw [Real.mul_rpow (by norm_num) hxpos.le]
  field_simp
  ring

/-- Helper: the chi-squared density integrand of `probability`, written in
the shape of the Gamma-integral lemma. -/
theorem integrand_rearrange (k : ℝ) (x : ℝ) :
    (2 : ℝ) ^ (-k / 2) / Real.Gamma (k / 2) * Real.exp (-x / 2) * x ^ (-1 + k / 2) =
      (2 : ℝ) ^ (-k / 2) / Real.Gamma (k / 2) *
        (x ^ (k / 2 - 1) * Real.exp (-(1 / 2 * x))) := by
  rw [show (-1 + k / 2 : ℝ) = k / 2 - 1 by ring,
    show (-x / 2 : ℝ) = -(1 / 2 * x) by ring]
  ring

/-- Helper: with zero reduced chi-squared the tail integral is the whole
chi-squared density mass, which is 1. -/
theorem probability_zero_eq_one (k tt : ℝ) (hk : 0 < k) :
    probability 0 k tt = 1 := by
  have ha : 0 < k / 2 := by linarith
  have hG : 0 < Real.Gamma (k / 2) := Real.Gamma_pos_of_pos ha
  have h2 : (0 : ℝ) < (2 : ℝ) ^ (k / 2) := Real.rpow_pos_of_pos (by norm_num) _
  rw [probability, zero_mul]
  simp_rw [integrand_rearrange]
  rw [MeasureTheory.integral_mul_left,
    Real.integral_rpow_mul_exp_neg_mul_Ioi ha (show (0 : ℝ) < 1 / 2 by norm_num),
    show ((1 : ℝ) / (1 / 2)) = 2 by norm_num,
    show (-k / 2 : ℝ) = -(k / 2) by ring,
    Real.rpow_neg (show (0 : ℝ) ≤ 2 by norm_num)]
  field_simp

/-- Helper: for nonnegative reduced chi-squared the tail probability lies
in `[0, 1]`: the integrand is nonnegative and the tail is dominated by the
full unit-mass integral. -/
theorem probability_mem_Icc (k r tt : ℝ) (hk : 0 < k) (hr : 0 ≤ r) :
    probability r k tt ∈ Set.Icc (0 : ℝ) 1 := by
  have ha : 0 < k / 2 := by linarith
  have hG : 0 < Real.Gamma (k / 2) := Real.Gamma_pos_of_pos ha
  have hc : 0 ≤ (2 : ℝ) ^ (-k / 2) / Real.Gamma (k / 2) :=
    le_of_lt (div_pos (Real.rpow_pos_of_pos (by norm_num) _) hG)
  have hrk : (0 : ℝ) ≤ r * k := mul_nonneg hr hk.le
  constructor
  · rw [probability]
    refine MeasureTheory.setIntegral_nonneg measurableSet_Ioi fun x hx => ?_
    have hx0 : (0 : ℝ) < x := lt_of_le_of_lt hrk hx
    exact mul_nonneg (mul_nonneg hc (Real.exp_pos _).le)
      (Real.rpow_pos_of_pos hx0 _).le
  · have hone := probability_zero_eq_one k tt hk
    rw [← hone, probability, probability, zero_mul]
    have hfi : IntegrableOn
        (fun x : ℝ => (2 : ℝ) ^ (-k / 2) / Real.Gamma (k / 2) * Real.exp (-x / 2) *
          x ^ (-1 + k / 2)) (Ioi 0) := by
      have hbig := (halfGamma_integrableOn (k / 2) ha).const_mul
        ((2 : ℝ) ^ (-k / 2) / Real.Gamma (k / 2))
      exact MeasureTheory.IntegrableOn.congr_fun hbig
        (fun x _ => (integrand_rearrange k x).symm) measurableSet_Ioi
    refine MeasureTheory.setIntegral_mono_set hfi ?_ ?_
    · rw [Filter.EventuallyLE, ae_restrict_iff' measurableSet_Ioi]
      refine ae_of_all _ fun x hx => ?_
      have hx0 : (0 : ℝ) < x := hx
      simpa using mul_nonneg (mul_nonneg hc (Real.exp_pos _).le)
        (Real.rpow_pos_of_pos hx0 _).le
    · exact HasSubset.Subset.eventuallyLE (Set.Ioi_subset_Ioi hrk)

/-- C8: for any degrees of freedom `k > 0`, `probability 0 k` equals 1
exactly — the chi-squared density `(2^(-k/2)/Γ(k/2)) e^(-x/2) x^(k/2-1)`
integrates to 1 over `(0, ∞)` — and for any nonnegative reduced
chi-squared the returned tail probability is a scalar in `[0, 1]`. -/
theorem probability_certainty_and_range (k r tt : ℝ) (hk : 0 < k) (hr : 0 ≤ r) :
    probability 0 k tt = 1 ∧ probability r k tt ∈ Set.Icc (0 : ℝ) 1 :=
  ⟨probability_zero_eq_one k tt hk, probability_mem_Icc k r tt hk hr⟩

/-- Witness for C8 at `k = 2`, `r = 1`. -/
theorem probability_certainty_and_range_witness :
    (0 : ℝ) < 2 ∧ (0 : ℝ) ≤ 1 ∧
    (probability 0 2 0 = 1 ∧ probability 1 2 0 ∈ Set.Icc (0 : ℝ) 1) :=
  ⟨by norm_num, by norm_num,
    probability_certainty_and_range 2 1 0 (by norm_num) (by norm_num)⟩

end GrbLC
